import Mathlib

/-!
Verification of the note-playback engine of a piano sequencer.

The development shallowly embeds the Rust sources:
  * `src-tauri/src/sample_player.rs` — sample-based playback (velocity
    layers, nearest-sample search, LRU cache, on-demand loading);
  * `src-tauri/src/audio.rs` — synthesized playback (ADSR envelope,
    additive harmonic synthesis, volume control);
  * `src-tauri/src/lib.rs` — the facade dispatching to the active backend.

Machine floats are modelled as exact numbers (`ℚ`/`ℝ` or a generic
linear ordered field), `u8`/`u16` arithmetic as `ℕ` with explicit bounds,
and fallible operations as `Except String`.
-/

/-! ## Velocity layers (`sample_player.rs`, `velocity_to_sample_layer`) -/

/-- Embeds `SamplePlayer::velocity_to_sample_layer`:
`((velocity as u16 * 16) / 128).max(1).min(16) as u8`.
For `velocity ≤ 255` the `u16` product `velocity * 16 ≤ 4080` never
overflows, so plain `ℕ` arithmetic is exact. -/
def velocity_to_sample_layer (velocity : ℕ) : ℕ :=
  min (max (velocity * 16 / 128) 1) 16

/-- The layer map is monotone: `v*16/128` is monotone in `v`, and
`min`/`max` against constants preserve monotonicity. -/
theorem velocity_to_sample_layer_mono (v w : ℕ) (hvw : v ≤ w) :
    velocity_to_sample_layer v ≤ velocity_to_sample_layer w := by
  unfold velocity_to_sample_layer
  have hdiv : v * 16 / 128 ≤ w * 16 / 128 :=
    Nat.div_le_div_right (Nat.mul_le_mul_right 16 hvw)
  exact min_le_min (max_le_max hdiv le_rfl) le_rfl

/-- C2: over the MIDI velocity range 0–127, `velocity_to_sample_layer`
computes `clamp(floor(v*16/128), 1, 16)`, lands in `[1,16]`, is
non-decreasing, maps 0 to 1, and maps 127 to 15 (one of the two roundings
the spec allows). -/
theorem velocity_to_sample_layer_correct :
    (∀ v, v ≤ 127 → velocity_to_sample_layer v = max 1 (min (v * 16 / 128) 16) ∧
      1 ≤ velocity_to_sample_layer v ∧ velocity_to_sample_layer v ≤ 16) ∧
    (∀ v w, v ≤ w → w ≤ 127 → velocity_to_sample_layer v ≤ velocity_to_sample_layer w) ∧
    velocity_to_sample_layer 0 = 1 ∧
    (velocity_to_sample_layer 127 = 15 ∨ velocity_to_sample_layer 127 = 16) := by
  refine ⟨by decide, ?_, by decide, by decide⟩
  intro v w hvw _
  exact velocity_to_sample_layer_mono v w hvw

/-- Witness for C2 at concrete velocities: the clamp form at `v = 64`,
and monotonicity across `100 ≤ 127`. -/
theorem velocity_to_sample_layer_correct_witness :
    velocity_to_sample_layer 64 = max 1 (min (64 * 16 / 128) 16) ∧
    velocity_to_sample_layer 100 ≤ velocity_to_sample_layer 127 :=
  ⟨(velocity_to_sample_layer_correct.1 64 (by decide)).1,
    velocity_to_sample_layer_correct.2.1 100 127 (by decide) (by decide)⟩

/-- C10: the layer map never produces 16 on the MIDI velocity range: its
maximum is 15, reached exactly on velocities 120–127 (contrary to the
source comment `120-127 -> 16`), so the key `play_note` requests never
has velocity layer 16 and a layer-16 sample can only be chosen by the
nearest-neighbor scan, never by the exact-match shortcut. -/
theorem velocity_to_sample_layer_never_16 :
    (∀ v, v ≤ 127 → velocity_to_sample_layer v ≤ 15 ∧ velocity_to_sample_layer v ≠ 16) ∧
    (∀ v, 120 ≤ v → v ≤ 127 → velocity_to_sample_layer v = 15) ∧
    (∀ (p v : ℕ), v ≤ 127 → (p, velocity_to_sample_layer v) ≠ (p, 16)) := by
  refine ⟨by decide, ?_, ?_⟩
  · intro v h1 h2
    interval_cases v <;> decide
  · intro p v hv heq
    exact (by decide : ∀ v ≤ 127, velocity_to_sample_layer v ≠ 16) v hv
      (congrArg Prod.snd heq)

/-- Witness for C10 at velocity 127: the layer is 15, not 16. -/
theorem velocity_to_sample_layer_never_16_witness :
    velocity_to_sample_layer 127 ≠ 16 ∧ velocity_to_sample_layer 127 = 15 :=
  ⟨(velocity_to_sample_layer_never_16.1 127 (by decide)).2,
    velocity_to_sample_layer_never_16.2.1 127 (by decide) (by decide)⟩

/-! ## Nearest-sample search (`sample_player.rs`, `find_closest_sample_key`) -/

/-- Weighted distance from `find_closest_sample_key`:
`(pitch as i16 - sample_pitch as i16).abs() * 4 + (velocity as i16 - sample_velocity as i16).abs()`.
All inputs are `u8` values, so the `i16` arithmetic never overflows
(the distance is at most `4*255 + 255 = 1275`). -/
def sampleDist (p v sp sv : ℕ) : ℕ :=
  4 * ((p : ℤ) - (sp : ℤ)).natAbs + ((v : ℤ) - (sv : ℤ)).natAbs

/-- Embeds the scan loop of `find_closest_sample_key`: iterate over all
indexed keys, keeping the first key whose weighted distance is strictly
smaller than the best distance seen so far (`best` starts at the first
key, `mind` at `i16::MAX = 32767`). -/
def find_closest_loop (p v : ℕ) : List (ℕ × ℕ) → (ℕ × ℕ) → ℕ → (ℕ × ℕ)
  | [], best, _ => best
  | k :: rest, best, mind =>
    if sampleDist p v k.1 k.2 < mind then
      find_closest_loop p v rest k (sampleDist p v k.1 k.2)
    else
      find_closest_loop p v rest best mind

/-- Embeds `SamplePlayer::find_closest_sample_key`.  The sample index is
modelled as the list of its keys (in iteration order): error on an empty
index, exact-match shortcut, otherwise the scan loop started from the
first key with best distance `i16::MAX`. -/
def find_closest_sample_key (keys : List (ℕ × ℕ)) (p v : ℕ) :
    Except String (ℕ × ℕ) :=
  match keys with
  | [] => .error "No samples indexed"
  | k0 :: _ =>
    if (p, v) ∈ keys then .ok (p, v)
    else .ok (find_closest_loop p v keys k0 32767)

/-- Invariant of the scan loop: the result is either the incoming best
key or a scanned key beating the incoming best distance, and it is at
least as close as every scanned key that beats the incoming distance. -/
theorem find_closest_loop_spec (p v : ℕ) (l : List (ℕ × ℕ)) :
    ∀ best mind,
      (find_closest_loop p v l best mind = best ∨
        (find_closest_loop p v l best mind ∈ l ∧
          sampleDist p v (find_closest_loop p v l best mind).1
            (find_closest_loop p v l best mind).2 < mind)) ∧
      (∀ k ∈ l, sampleDist p v k.1 k.2 < mind →
        sampleDist p v (find_closest_loop p v l best mind).1
          (find_closest_loop p v l best mind).2 ≤ sampleDist p v k.1 k.2) := by
  induction l with
  | nil =>
    intro best mind
    refine ⟨Or.inl rfl, ?_⟩
    intro k hk
    exact absurd hk (List.not_mem_nil k)
  | cons a rest ih =>
    intro best mind
    by_cases h : sampleDist p v a.1 a.2 < mind
    · have hred : find_closest_loop p v (a :: rest) best mind =
          find_closest_loop p v rest a (sampleDist p v a.1 a.2) := by
        simp [find_closest_loop, h]
      obtain ⟨ih1, ih2⟩ := ih a (sampleDist p v a.1 a.2)
      constructor
      · rcases ih1 with heq | ⟨hmem, hlt⟩
        · refine Or.inr ⟨?_, ?_⟩
          · rw [hred, heq]; exact List.mem_cons_self a rest
          · rw [hred, heq]; exact h
        · refine Or.inr ⟨?_, ?_⟩
          · rw [hred]; exact List.mem_cons_of_mem a hmem
          · rw [hred]; exact lt_trans hlt h
      · intro k hk _
        have hres : sampleDist p v (find_closest_loop p v (a :: rest) best mind).1
            (find_closest_loop p v (a :: rest) best mind).2 ≤ sampleDist p v a.1 a.2 := by
          rcases ih1 with heq | ⟨_, hlt⟩
          · rw [hred, heq]
          · rw [hred]; exact le_of_lt hlt
        rcases List.mem_cons.mp hk with rfl | hk'
        · exact hres
        · by_cases hk2 : sampleDist p v k.1 k.2 < sampleDist p v a.1 a.2
          · rw [hred]; exact ih2 k hk' hk2
          · exact le_trans hres (le_of_not_lt hk2)
    · have hred : find_closest_loop p v (a :: rest) best mind =
          find_closest_loop p v rest best mind := by
        simp [find_closest_loop, h]
      obtain ⟨ih1, ih2⟩ := ih best mind
      rw [hred]
      constructor
      · rcases ih1 with heq | ⟨hmem, hlt⟩
        · exact Or.inl heq
        · exact Or.inr ⟨List.mem_cons_of_mem a hmem, hlt⟩
      · intro k hk hklt
        rcases List.mem_cons.mp hk with rfl | hk'
        · exact absurd hklt h
        · exact ih2 k hk' hklt

/-- The weighted distance between `u8`-bounded keys is below `i16::MAX`. -/
theorem sampleDist_lt_max (p v sp sv : ℕ) (hp : p ≤ 255) (hv : v ≤ 255)
    (hsp : sp ≤ 255) (hsv : sv ≤ 255) : sampleDist p v sp sv < 32767 := by
  unfold sampleDist
  omega

/-- C3: `find_closest_sample_key` errors on an empty index, returns an
exact match when the requested key is indexed, and otherwise returns an
indexed key minimizing the weighted distance `4*|Δpitch| + |Δlayer|`. -/
theorem find_closest_sample_key_correct (keys : List (ℕ × ℕ)) (p v : ℕ)
    (hp : p ≤ 255) (hv : v ≤ 255)
    (hkeys : ∀ k ∈ keys, k.1 ≤ 255 ∧ k.2 ≤ 255) :
    (find_closest_sample_key [] p v = .error "No samples indexed") ∧
    ((p, v) ∈ keys → find_closest_sample_key keys p v = .ok (p, v)) ∧
    (keys ≠ [] → ∃ k, k ∈ keys ∧ find_closest_sample_key keys p v = .ok k ∧
      ∀ k' ∈ keys, sampleDist p v k.1 k.2 ≤ sampleDist p v k'.1 k'.2) := by
  refine ⟨rfl, ?_, ?_⟩
  · intro hmem
    match keys, hmem with
    | k0 :: rest, hmem => simp [find_closest_sample_key, hmem]
  · intro hne
    match keys, hne with
    | k0 :: rest, _ =>
      by_cases hmem : (p, v) ∈ k0 :: rest
      · refine ⟨(p, v), hmem, by simp [find_closest_sample_key, hmem], ?_⟩
        intro k' _
        simp [sampleDist]
      · obtain ⟨h1, h2⟩ := find_closest_loop_spec p v (k0 :: rest) k0 32767
        set r := find_closest_loop p v (k0 :: rest) k0 32767 with hr
        have hrmem : r ∈ k0 :: rest := by
          rcases h1 with heq | ⟨hm, _⟩
          · rw [heq]; exact List.mem_cons_self k0 rest
          · exact hm
        refine ⟨r, hrmem, by simp [find_closest_sample_key, hmem, hr], ?_⟩
        intro k' hk'
        obtain ⟨hk1, hk2⟩ := hkeys k' hk'
        exact h2 k' hk' (sampleDist_lt_max p v k'.1 k'.2 hp hv hk1 hk2)

/-- Witness for C3: on the index {(60,8), (64,4)}, requesting (60,8)
matches exactly, and requesting (61,8) resolves to a distance-minimizing
key. -/
theorem find_closest_sample_key_correct_witness :
    find_closest_sample_key [(60, 8), (64, 4)] 60 8 = .ok (60, 8) ∧
    (∃ k, k ∈ [(60, 8), (64, 4)] ∧
      find_closest_sample_key [(60, 8), (64, 4)] 61 8 = .ok k ∧
      ∀ k' ∈ [(60, 8), (64, 4)],
        sampleDist 61 8 k.1 k.2 ≤ sampleDist 61 8 k'.1 k'.2) :=
  ⟨(find_closest_sample_key_correct [(60, 8), (64, 4)] 60 8 (by decide)
      (by decide) (by decide)).2.1 (by decide),
    (find_closest_sample_key_correct [(60, 8), (64, 4)] 61 8 (by decide)
      (by decide) (by decide)).2.2 (by decide)⟩

/-! ## LRU sample cache (`sample_player.rs`, `load_sample_on_demand`)

The `lru` crate's `LruCache` is an external dependency; following its
documented semantics (and §4.5 of the spec), it is modelled as a list of
entries in recency order, most recently used first, with a fixed
capacity: a hit moves the entry to the front, an insertion past capacity
drops the last (least recently used) entry.  PCM buffers are an
arbitrary value type `V`. -/

/-- First value stored under key `k`, scanning in recency order
(specializes `List.find?` to key lookup). -/
def findKey {V : Type} (k : ℕ × ℕ) : List ((ℕ × ℕ) × V) → Option V
  | [] => none
  | e :: rest => if e.1 = k then some e.2 else findKey k rest

/-- Remove the first entry stored under key `k`, if any. -/
def removeKey {V : Type} (k : ℕ × ℕ) : List ((ℕ × ℕ) × V) → List ((ℕ × ℕ) × V)
  | [] => []
  | e :: rest => if e.1 = k then rest else e :: removeKey k rest

/-- Model of `lru::LruCache<(u8,u8), Vec<f32>>`: entries most recently
used first, plus the fixed capacity (`100` in `SamplePlayer::new`). -/
structure LruCache (V : Type) where
  entries : List ((ℕ × ℕ) × V)
  capacity : ℕ

/-- `LruCache::new(cap)`: an empty cache. -/
def LruCache.empty (V : Type) (cap : ℕ) : LruCache V := ⟨[], cap⟩

/-- `LruCache::get`: on a hit, return the value and move the entry to
the front (most recently used); on a miss, leave the cache unchanged. -/
def LruCache.get {V : Type} (c : LruCache V) (k : ℕ × ℕ) :
    Option V × LruCache V :=
  match findKey k c.entries with
  | some v => (some v, ⟨(k, v) :: removeKey k c.entries, c.capacity⟩)
  | none => (none, c)

/-- `LruCache::put`: insert (or refresh) the entry at the front; if the
cache would exceed its capacity, the trailing (least recently used)
entry is dropped. -/
def LruCache.put {V : Type} (c : LruCache V) (k : ℕ × ℕ) (v : V) : LruCache V :=
  ⟨((k, v) :: removeKey k c.entries).take c.capacity, c.capacity⟩

/-- Embeds `SamplePlayer::load_sample_on_demand`.  The sample index is
the list of indexed keys (`sample_paths.get` hit ⟺ membership); opening
and decoding the file behind a key is the pure oracle
`decode : key → Option V` (`none` covers both `File::open` and
`Decoder::new` failures).  Returns the decoded samples and the cache
after the call:
1. on a cache hit, return the cached buffer;
2. otherwise fail if the key is not indexed;
3. otherwise decode (failure is propagated, cache untouched);
4. on success, `put` the buffer into the cache and return it. -/
def load_sample_on_demand {V : Type} (index : List (ℕ × ℕ))
    (decode : ℕ × ℕ → Option V) (c : LruCache V) (k : ℕ × ℕ) :
    Except String V × LruCache V :=
  match c.get k with
  | (some v, c') => (.ok v, c')
  | (none, _) =>
    if k ∈ index then
      match decode k with
      | some v => (.ok v, c.put k v)
      | none => (.error "Failed to decode audio file", c)
    else
      (.error ("Sample not found for pitch " ++ toString k.1 ++
        " velocity " ++ toString k.2), c)

/-- A sequence of on-demand loads, threading the cache through. -/
def run_loads {V : Type} (index : List (ℕ × ℕ)) (decode : ℕ × ℕ → Option V) :
    List (ℕ × ℕ) → LruCache V → LruCache V
  | [], c => c
  | k :: ks, c => run_loads index decode ks (load_sample_on_demand index decode c k).2

/-- A key that `findKey` does not see is not removed by `removeKey`. -/
theorem removeKey_of_findKey_none {V : Type} (k : ℕ × ℕ)
    (l : List ((ℕ × ℕ) × V)) (h : findKey k l = none) : removeKey k l = l := by
  induction l with
  | nil => rfl
  | cons e rest ih =>
    by_cases he : e.1 = k
    · simp [findKey, he] at h
    · simp [findKey, he] at h
      simp [removeKey, he, ih h]

/-- `removeKey` drops exactly one entry when `findKey` hits. -/
theorem length_removeKey_of_findKey_some {V : Type} (k : ℕ × ℕ)
    (l : List ((ℕ × ℕ) × V)) (v : V) (h : findKey k l = some v) :
    l.length = (removeKey k l).length + 1 := by
  induction l with
  | nil => simp [findKey] at h
  | cons e rest ih =>
    by_cases he : e.1 = k
    · simp [removeKey, he]
    · simp [findKey, he] at h
      simp [removeKey, he, ih h]

/-- One on-demand load keeps the cache within its capacity and does not
change the capacity. -/
theorem load_sample_on_demand_bound {V : Type} (index : List (ℕ × ℕ))
    (decode : ℕ × ℕ → Option V) (c : LruCache V) (k : ℕ × ℕ)
    (hc : c.entries.length ≤ c.capacity) :
    (load_sample_on_demand index decode c k).2.entries.length ≤ c.capacity ∧
    (load_sample_on_demand index decode c k).2.capacity = c.capacity := by
  refine ⟨?_, ?_⟩ <;>
    (unfold load_sample_on_demand LruCache.get
     rcases hfind : findKey k c.entries with _ | v)
  · by_cases hidx : k ∈ index
    · rcases hdec : decode k with _ | v
      · simp [hfind, hidx, hdec]
        exact hc
      · simp [hfind, hidx, hdec, LruCache.put]
    · simp [hfind, hidx]
      exact hc
  · have := length_removeKey_of_findKey_some k c.entries v hfind
    simp [hfind]
    omega
  · by_cases hidx : k ∈ index
    · rcases hdec : decode k with _ | v
      · simp [hfind, hidx, hdec]
      · simp [hfind, hidx, hdec, LruCache.put]
    · simp [hfind, hidx]
  · simp [hfind]

/-- Any sequence of on-demand loads keeps the cache within capacity. -/
theorem run_loads_bound {V : Type} (index : List (ℕ × ℕ))
    (decode : ℕ × ℕ → Option V) (ops : List (ℕ × ℕ)) :
    ∀ c : LruCache V, c.entries.length ≤ c.capacity →
      (run_loads index decode ops c).entries.length ≤ c.capacity ∧
      (run_loads index decode ops c).capacity = c.capacity := by
  induction ops with
  | nil => intro c hc; exact ⟨hc, rfl⟩
  | cons k ks ih =>
    intro c hc
    obtain ⟨h1, h2⟩ := load_sample_on_demand_bound index decode c k hc
    obtain ⟨h3, h4⟩ := ih (load_sample_on_demand index decode c k).2 (h2 ▸ h1)
    exact ⟨by rw [run_loads]; omega, by rw [run_loads]; omega⟩

/-- Taking all but one element of a list is `dropLast`. -/
theorem take_length_sub_one_eq_dropLast {V : Type} (l : List V) :
    l.take (l.length - 1) = l.dropLast := by
  induction l with
  | nil => rfl
  | cons a rest ih =>
    cases rest with
    | nil => rfl
    | cons b rest' =>
      simp only [List.length_cons, Nat.add_sub_cancel, List.dropLast_cons₂,
        List.take_succ_cons]
      rw [← ih]
      simp

/-- C6: starting from the empty 100-entry cache of `SamplePlayer::new`,
no sequence of `load_sample_on_demand` calls ever leaves more than 100
cached samples; and a successful load of a fresh key into any full cache
evicts exactly the least recently used entry (the last in recency
order), leaving the cache at capacity. -/
theorem sample_cache_capacity {V : Type} (index : List (ℕ × ℕ))
    (decode : ℕ × ℕ → Option V) (ops : List (ℕ × ℕ)) (c : LruCache V)
    (k : ℕ × ℕ) (v : V) (hfull : c.entries.length = c.capacity)
    (hpos : 0 < c.capacity) (hfresh : findKey k c.entries = none)
    (hidx : k ∈ index) (hdec : decode k = some v) :
    (run_loads index decode ops (LruCache.empty V 100)).entries.length ≤ 100 ∧
    (load_sample_on_demand index decode c k).2.entries =
      (k, v) :: c.entries.dropLast ∧
    (load_sample_on_demand index decode c k).2.entries.length = c.capacity := by
  refine ⟨(run_loads_bound index decode ops (LruCache.empty V 100)
    (by simp [LruCache.empty])).1, ?_, ?_⟩
  · unfold load_sample_on_demand LruCache.get
    simp only [hfresh, hidx, hdec, if_pos, LruCache.put,
      removeKey_of_findKey_none k c.entries hfresh]
    obtain ⟨m, hm⟩ := Nat.exists_eq_add_of_lt hpos
    rw [hm, Nat.zero_add, List.take_succ_cons]
    rw [show m = c.entries.length - 1 by omega,
      take_length_sub_one_eq_dropLast]
  · unfold load_sample_on_demand LruCache.get
    simp only [hfresh, hidx, hdec, if_pos, LruCache.put,
      removeKey_of_findKey_none k c.entries hfresh]
    simp only [List.length_take, List.length_cons]
    omega

/-- Witness for C6: a full 2-entry cache evicts its least recently used
entry when the fresh key (3,3) is loaded. -/
theorem sample_cache_capacity_witness :
    (run_loads [(1, 1), (2, 2), (3, 3)] (fun k => some k.1) [(1, 1), (2, 2)]
      (LruCache.empty ℕ 100)).entries.length ≤ 100 ∧
    (load_sample_on_demand [(1, 1), (2, 2), (3, 3)] (fun k => some k.1)
      ⟨[((1, 1), 1), ((2, 2), 2)], 2⟩ (3, 3)).2.entries =
      ((3, 3), 3) :: ([((1, 1), 1), ((2, 2), 2)] :
        List ((ℕ × ℕ) × ℕ)).dropLast ∧
    (load_sample_on_demand [(1, 1), (2, 2), (3, 3)] (fun k => some k.1)
      ⟨[((1, 1), 1), ((2, 2), 2)], 2⟩ (3, 3)).2.entries.length = 2 :=
  sample_cache_capacity [(1, 1), (2, 2), (3, 3)] (fun k => some k.1)
    [(1, 1), (2, 2)] ⟨[((1, 1), 1), ((2, 2), 2)], 2⟩ (3, 3) 3
    (by decide) (by decide) (by decide) (by decide) (by decide)

/-- C7: `load_sample_on_demand` fails exactly when the key is not cached
and either is absent from the sample index or its file fails to open or
decode; every failing call returns a typed error and leaves the cache
exactly as it was (nothing inserted, nothing evicted). -/
theorem load_sample_on_demand_failure (V : Type) (index : List (ℕ × ℕ))
    (decode : ℕ × ℕ → Option V) (c : LruCache V) (k : ℕ × ℕ) :
    ((∃ msg, (load_sample_on_demand index decode c k).1 = .error msg) ↔
      (findKey k c.entries = none ∧ (k ∉ index ∨ decode k = none))) ∧
    ((∃ msg, (load_sample_on_demand index decode c k).1 = .error msg) →
      (load_sample_on_demand index decode c k).2 = c) := by
  unfold load_sample_on_demand LruCache.get
  rcases hfind : findKey k c.entries with _ | v
  · by_cases hidx : k ∈ index
    · rcases hdec : decode k with _ | v
      · simp [hfind, hidx, hdec]
      · simp [hfind, hidx, hdec]
    · simp [hfind, hidx]
  · simp [hfind]

/-- Witness for C7: loading the unindexed key (9,9) into an empty cache
errors and leaves the cache unchanged. -/
theorem load_sample_on_demand_failure_witness :
    (load_sample_on_demand [(1, 1)] (fun k => some k.1)
      (LruCache.empty ℕ 100) (9, 9)).2 = LruCache.empty ℕ 100 :=
  (load_sample_on_demand_failure ℕ [(1, 1)] (fun k => some k.1)
    (LruCache.empty ℕ 100) (9, 9)).2
    ⟨"Sample not found for pitch 9 velocity 9", rfl⟩

/-- C9: loading an indexed, decodable key twice in a row succeeds both
times with the same PCM buffer — the second call is served from the
cache entry the first call either found or created. -/
theorem load_sample_on_demand_idempotent {V : Type} (index : List (ℕ × ℕ))
    (decode : ℕ × ℕ → Option V) (c : LruCache V) (k : ℕ × ℕ) (v0 : V)
    (hidx : k ∈ index) (hdec : decode k = some v0) :
    ∃ v, (load_sample_on_demand index decode c k).1 = .ok v ∧
      (load_sample_on_demand index decode
        (load_sample_on_demand index decode c k).2 k).1 = .ok v := by
  rcases hfind : findKey k c.entries with _ | w
  · refine ⟨v0, ?_, ?_⟩
    · unfold load_sample_on_demand LruCache.get
      simp [hfind, hidx, hdec]
    · have h2 : (load_sample_on_demand index decode c k).2 = c.put k v0 := by
        unfold load_sample_on_demand LruCache.get
        simp [hfind, hidx, hdec]
      rw [h2]
      rcases hcap : c.capacity with _ | m
      · have hempty : (c.put k v0).entries = [] := by
          simp [LruCache.put, hcap]
        unfold load_sample_on_demand LruCache.get
        simp [hempty, findKey, hidx, hdec]
      · have hcons : (c.put k v0).entries =
            (k, v0) :: (removeKey k c.entries).take m := by
          simp [LruCache.put, hcap]
        unfold load_sample_on_demand LruCache.get
        simp [hcons, findKey]
  · refine ⟨w, ?_, ?_⟩
    · unfold load_sample_on_demand LruCache.get
      simp [hfind]
    · have h2 : (load_sample_on_demand index decode c k).2 =
          ⟨(k, w) :: removeKey k c.entries, c.capacity⟩ := by
        unfold load_sample_on_demand LruCache.get
        simp [hfind]
      rw [h2]
      unfold load_sample_on_demand LruCache.get
      simp [findKey]

/-- Witness for C9: loading key (60,8) twice from the empty cache yields
the same decoded buffer both times. -/
theorem load_sample_on_demand_idempotent_witness :
    ∃ v, (load_sample_on_demand [(60, 8)]
      (fun k => if k = (60, 8) then some 42 else none)
      (LruCache.empty ℕ 100) (60, 8)).1 = .ok v ∧
      (load_sample_on_demand [(60, 8)]
        (fun k => if k = (60, 8) then some 42 else none)
        (load_sample_on_demand [(60, 8)]
          (fun k => if k = (60, 8) then some 42 else none)
          (LruCache.empty ℕ 100) (60, 8)).2 (60, 8)).1 = .ok v :=
  load_sample_on_demand_idempotent [(60, 8)]
    (fun k => if k = (60, 8) then some 42 else none)
    (LruCache.empty ℕ 100) (60, 8) 42 (by decide) (by decide)

/-! ## Engine facade and volume control (`lib.rs`, `audio.rs`)

`f32` volume values are modelled as exact rationals; the synthesizer
engine state keeps only the fields the claims touch. -/

/-- `SoundMode` from `audio.rs`. -/
inductive SoundMode where
  | Synthesizer
  | Piano
deriving DecidableEq

/-- The mutable state of `AudioEngine` relevant to volume and mode. -/
structure AudioEngine where
  volume : ℚ
  sound_mode : SoundMode
deriving DecidableEq

/-- Embeds `AudioEngine::set_volume`:
`self.volume = volume.max(0.0).min(1.0); Ok(())`. -/
def AudioEngine.set_volume (e : AudioEngine) (volume : ℚ) :
    Except String AudioEngine :=
  .ok { e with volume := min (max volume 0) 1 }

/-- Embeds `AudioEngine::set_sound_mode` (always succeeds). -/
def AudioEngine.set_sound_mode (e : AudioEngine) (mode : SoundMode) :
    Except String AudioEngine :=
  .ok { e with sound_mode := mode }

/-- The `AudioPlayer` enum of `lib.rs`: the backend chosen at startup. -/
inductive AudioPlayer where
  | Samples
  | Synthesized (engine : AudioEngine)
deriving DecidableEq

/-- Embeds the `set_volume` Tauri command of `lib.rs`: an error on the
sample backend, `AudioEngine::set_volume` on the synthesizer backend. -/
def set_volume (p : AudioPlayer) (volume : ℚ) : Except String AudioPlayer :=
  match p with
  | .Samples => .error "Volume control not supported for sample playback"
  | .Synthesized engine =>
    match engine.set_volume volume with
    | .ok e => .ok (.Synthesized e)
    | .error msg => .error msg

/-- Embeds the `set_sound_mode` Tauri command of `lib.rs`: an error on
the sample backend; on the synthesizer backend the mode string is parsed
("piano" / "synthesizer", anything else is an error) and stored. -/
def set_sound_mode (p : AudioPlayer) (mode : String) : Except String AudioPlayer :=
  match p with
  | .Samples => .error "Cannot change sound mode when using samples"
  | .Synthesized engine =>
    if mode = "piano" then
      match engine.set_sound_mode .Piano with
      | .ok e => .ok (.Synthesized e)
      | .error msg => .error msg
    else if mode = "synthesizer" then
      match engine.set_sound_mode .Synthesizer with
      | .ok e => .ok (.Synthesized e)
      | .error msg => .error msg
    else
      .error ("Invalid sound mode: " ++ mode)

/-- C8: with the sample backend active, `set_volume` and
`set_sound_mode` always return an error; with the synthesizer backend
active, `set_volume` succeeds on every input, storing the volume clamped
to `[0,1]`. -/
theorem backend_control_errors (volume : ℚ) (mode : String) (e : AudioEngine) :
    set_volume .Samples volume =
      .error "Volume control not supported for sample playback" ∧
    set_sound_mode .Samples mode =
      .error "Cannot change sound mode when using samples" ∧
    set_volume (.Synthesized e) volume =
      .ok (.Synthesized { e with volume := min (max volume 0) 1 }) ∧
    0 ≤ min (max volume 0) 1 ∧ min (max volume 0) 1 ≤ (1 : ℚ) :=
  ⟨rfl, rfl, rfl, le_min (le_max_right volume 0) zero_le_one,
    min_le_right _ 1⟩

/-! ## ADSR envelope (`audio.rs`, `AudioEngine::play_note`)

The envelope amplitude computed per sample inside `play_note` (lines
123–137), as a function of the elapsed time `t`.  `f32` arithmetic is
modelled exactly over any linear ordered field, so that the same
definition is executable at `ℚ` and carries the order topology at `ℝ`. -/

/-- Embeds the envelope-amplitude computation of `AudioEngine::play_note`:
attack ramp `t / attack`; decay ramp `1 - (1 - sustain) * decay_t`;
sustain hold; release ramp `sustain * (1 - release_t).max(0)`. -/
def envelope_amp {K : Type} [LinearOrderedField K]
    (attack decay sustain release duration t : K) : K :=
  if t < attack then
    t / attack
  else if t < attack + decay then
    1 - (1 - sustain) * ((t - attack) / decay)
  else if t < duration then
    sustain
  else
    sustain * max (1 - (t - duration) / release) 0

/-- The piecewise envelope exactly as the specification words it:
`t/attack` for `t < attack`; `1 - (1-sustain)*((t-attack)/decay)` for
`attack ≤ t < attack+decay`; `sustain` for `attack+decay ≤ t < duration`;
`sustain * max(0, 1 - (t-duration)/release)` for `t ≥ duration`. -/
def envelope_amp_spec {K : Type} [LinearOrderedField K]
    (attack decay sustain release duration t : K) : K :=
  if t < attack then
    t / attack
  else if t < attack + decay then
    1 - (1 - sustain) * ((t - attack) / decay)
  else if t < duration then
    sustain
  else
    sustain * max 0 (1 - (t - duration) / release)

/-- The envelope is (globally) continuous in `t`: each branch is
continuous and adjacent branches agree at the phase boundaries. -/
theorem envelope_amp_continuous (a d s r dur : ℝ) (ha : 0 < a) (hd : 0 < d)
    (hdur : a + d < dur) : Continuous (envelope_amp a d s r dur) := by
  unfold envelope_amp
  apply Continuous.if
  · intro x hx
    rw [show {t : ℝ | t < a} = Set.Iio a from rfl, frontier_Iio] at hx
    rw [Set.mem_singleton_iff.mp hx]
    rw [if_pos (show a < a + d by linarith), div_self ha.ne']
    rw [show a - a = 0 by ring, zero_div, mul_zero, sub_zero]
  · exact continuous_id.div_const a
  · apply Continuous.if
    · intro x hx
      rw [show {t : ℝ | t < a + d} = Set.Iio (a + d) from rfl, frontier_Iio] at hx
      rw [Set.mem_singleton_iff.mp hx]
      rw [if_pos hdur]
      rw [show a + d - a = d by ring, div_self hd.ne']
      ring
    · exact (continuous_const.sub (continuous_const.mul
        ((continuous_id.sub continuous_const).div_const d)))
    · apply Continuous.if
      · intro x hx
        rw [show {t : ℝ | t < dur} = Set.Iio dur from rfl, frontier_Iio] at hx
        rw [Set.mem_singleton_iff.mp hx]
        rw [show dur - dur = 0 by ring, zero_div, sub_zero]
        simp
      · exact continuous_const
      · exact continuous_const.mul
          ((continuous_const.sub
            ((continuous_id.sub continuous_const).div_const r)).max
            continuous_const)

/-- C1: for envelope parameters with positive attack/decay/release
times, sustain level in `[0,1]`, and `attack + decay < duration`, the
per-sample envelope of `play_note` is exactly the piecewise function of
the specification, is continuous at all three phase boundaries, starts
at 0, is identically 0 from `duration + release` on, and stays in
`[0,1]` for every `t ≥ 0`. -/
theorem envelope_amp_correct (a d s r dur : ℝ) (ha : 0 < a) (hd : 0 < d)
    (hs0 : 0 ≤ s) (hs1 : s ≤ 1) (hr : 0 < r) (hdur : a + d < dur) :
    (∀ t : ℝ, envelope_amp a d s r dur t = envelope_amp_spec a d s r dur t) ∧
    ContinuousAt (envelope_amp a d s r dur) a ∧
    ContinuousAt (envelope_amp a d s r dur) (a + d) ∧
    ContinuousAt (envelope_amp a d s r dur) dur ∧
    envelope_amp a d s r dur 0 = 0 ∧
    (∀ t : ℝ, dur + r ≤ t → envelope_amp a d s r dur t = 0) ∧
    (∀ t : ℝ, 0 ≤ t →
      0 ≤ envelope_amp a d s r dur t ∧ envelope_amp a d s r dur t ≤ 1) := by
  have hcont := envelope_amp_continuous a d s r dur ha hd hdur
  refine ⟨?_, hcont.continuousAt, hcont.continuousAt, hcont.continuousAt,
    ?_, ?_, ?_⟩
  · intro t
    unfold envelope_amp envelope_amp_spec
    split_ifs <;> simp [max_comm]
  · unfold envelope_amp
    rw [if_pos ha, zero_div]
  · intro t ht
    unfold envelope_amp
    rw [if_neg (by linarith), if_neg (by linarith), if_neg (by linarith)]
    have hy : (1 : ℝ) ≤ (t - dur) / r := (le_div_iff₀ hr).mpr (by linarith)
    rw [max_eq_right (by linarith), mul_zero]
  · intro t ht
    unfold envelope_amp
    split_ifs with h1 h2 h3
    · exact ⟨div_nonneg ht ha.le, (div_le_one ha).mpr h1.le⟩
    · have hx0 : 0 ≤ (t - a) / d := div_nonneg (by linarith) hd.le
      have hx1 : (t - a) / d ≤ 1 := (div_le_one hd).mpr (by linarith)
      constructor <;> nlinarith
    · exact ⟨hs0, hs1⟩
    · have hy0 : 0 ≤ (t - dur) / r := div_nonneg (by linarith) hr.le
      have hm0 : (0 : ℝ) ≤ max (1 - (t - dur) / r) 0 := le_max_right _ _
      have hm1 : max (1 - (t - dur) / r) 0 ≤ 1 :=
        max_le (by linarith) zero_le_one
      constructor <;> nlinarith

/-- Witness for C1 at the piano-mode envelope of `play_note`
(attack 0.002, decay 0.3, sustain 0.3, release 0.5) with a 2-second
note. -/
theorem envelope_amp_correct_witness :
    (∀ t : ℝ, envelope_amp (1/500) (3/10) (3/10) (1/2) 2 t =
      envelope_amp_spec (1/500) (3/10) (3/10) (1/2) 2 t) ∧
    ContinuousAt (envelope_amp ((1:ℝ)/500) (3/10) (3/10) (1/2) 2) (1/500) ∧
    ContinuousAt (envelope_amp ((1:ℝ)/500) (3/10) (3/10) (1/2) 2) (1/500 + 3/10) ∧
    ContinuousAt (envelope_amp ((1:ℝ)/500) (3/10) (3/10) (1/2) 2) 2 ∧
    envelope_amp ((1:ℝ)/500) (3/10) (3/10) (1/2) 2 0 = 0 ∧
    (∀ t : ℝ, 2 + 1/2 ≤ t → envelope_amp (1/500) (3/10) (3/10) (1/2) 2 t = 0) ∧
    (∀ t : ℝ, 0 ≤ t → 0 ≤ envelope_amp (1/500) (3/10) (3/10) (1/2) 2 t ∧
      envelope_amp (1/500) (3/10) (3/10) (1/2) 2 t ≤ 1) :=
  envelope_amp_correct (1/500) (3/10) (3/10) (1/2) 2 (by norm_num)
    (by norm_num) (by norm_num) (by norm_num) (by norm_num) (by norm_num)


/-! ## Harmonic synthesis (`audio.rs`, `generate_piano_sample` /
`generate_synth_sample`)

The sine function and π of `f32` are abstracted as parameters over a
generic linear ordered field, so the generators stay executable; the
claims are settled at `K = ℝ`, `sine = Real.sin`, `pi = Real.pi`. -/

/-- The harmonic table of `generate_piano_sample`:
`(harmonic multiple, amplitude)` pairs. -/
def harmonics (K : Type) [LinearOrderedField K] : List (K × K) :=
  [(1, 1), (2, 0.5), (3, 0.25), (4, 0.15), (5, 0.1), (6, 0.05)]

/-- Embeds `AudioEngine::generate_piano_sample`: accumulate
`sine(t * harmonic_freq * detune * 2π) * amplitude` over the harmonic
table (with `harmonic_freq = frequency * n` and
`detune = 1 + (n-1) * 0.001`), then scale by the fixed normalization
0.2, the envelope amplitude, the velocity amplitude, and the volume. -/
def generate_piano_sample {K : Type} [LinearOrderedField K] (sine : K → K)
    (pi t frequency env_amp vel_amp vol : K) : K :=
  ((harmonics K).foldl
    (fun sample h =>
      sample +
        sine (t * (frequency * h.1) * (1 + (h.1 - 1) * 0.001) * 2 * pi) * h.2)
    0) * 0.2 * env_amp * vel_amp * vol

/-- Embeds `AudioEngine::generate_synth_sample`: a single sine scaled by
envelope amplitude, velocity amplitude, and volume. -/
def generate_synth_sample {K : Type} [LinearOrderedField K] (sine : K → K)
    (pi t frequency env_amp vel_amp vol : K) : K :=
  sine (t * frequency * 2 * pi) * env_amp * vel_amp * vol

/-- Embeds the velocity scaling of `AudioEngine::play_note`:
`(velocity as f32 / 127.0) * 0.5`. -/
def velocity_amplitude (K : Type) [LinearOrderedField K] (velocity : ℕ) : K :=
  ((velocity : K) / 127) * 0.5

/-- The additive-synthesis formula exactly as the specification words
it: the six weighted, detuned harmonics summed and then scaled. -/
def generate_piano_sample_spec {K : Type} [LinearOrderedField K] (sine : K → K)
    (pi t f e va vol : K) : K :=
  0.2 * e * va * vol *
    (1 * sine (t * (f * 1 * (1 + (1 - 1) * 0.001)) * (2 * pi)) +
     0.5 * sine (t * (f * 2 * (1 + (2 - 1) * 0.001)) * (2 * pi)) +
     0.25 * sine (t * (f * 3 * (1 + (3 - 1) * 0.001)) * (2 * pi)) +
     0.15 * sine (t * (f * 4 * (1 + (4 - 1) * 0.001)) * (2 * pi)) +
     0.1 * sine (t * (f * 5 * (1 + (5 - 1) * 0.001)) * (2 * pi)) +
     0.05 * sine (t * (f * 6 * (1 + (6 - 1) * 0.001)) * (2 * pi)))

/-- C5: for every time, frequency, envelope amplitude, velocity, and
volume, `generate_piano_sample` (at `Real.sin`, `Real.pi`) equals the
specification's six-harmonic sum with weights
(1, 0.5, 0.25, 0.15, 0.1, 0.05), detuning `1 + (n-1)*0.001`,
normalization 0.2, and the velocity-derived amplitude `(v/127)*0.5`;
`generate_synth_sample` is the single undetuned sine with no harmonics
and no normalization factor. -/
theorem generate_samples_correct (t f e vol : ℝ) (v : ℕ) :
    generate_piano_sample Real.sin Real.pi t f e (velocity_amplitude ℝ v) vol =
      generate_piano_sample_spec Real.sin Real.pi t f e
        (((v : ℝ) / 127) * 0.5) vol ∧
    generate_synth_sample Real.sin Real.pi t f e (velocity_amplitude ℝ v) vol =
      Real.sin (t * f * (2 * Real.pi)) * e * (((v : ℝ) / 127) * 0.5) * vol := by
  constructor
  · simp only [generate_piano_sample, generate_piano_sample_spec, harmonics,
      List.foldl, velocity_amplitude]
    ring_nf
  · simp only [generate_synth_sample, velocity_amplitude]
    ring_nf

/-! ## Sample-backend playback scaling (`sample_player.rs`,
`SamplePlayer::play_note`) -/

/-- Embeds the pitch-shift ratio of `SamplePlayer::play_note`:
`2.0_f32.powf((pitch - closest_pitch) / 12.0)`, with the `f32` power
function abstracted as `powf` (instantiated with real `rpow`). -/
def pitch_ratio {K : Type} [LinearOrderedField K] (powf : K → K → K)
    (pitch closest_pitch : ℕ) : K :=
  powf 2 (((pitch : K) - (closest_pitch : K)) / 12)

/-- Embeds the velocity-compensation factor of `SamplePlayer::play_note`:
the master volume when the resolved layer matches the requested one,
otherwise `(volume * (1 + velocity_diff * 0.3)).max(0.1).min(1.0)` with
`velocity_diff = (target - closest) / 16`. -/
def velocity_factor {K : Type} [LinearOrderedField K] (volume : K)
    (target_velocity closest_velocity : ℕ) : K :=
  if closest_velocity = target_velocity then volume
  else
    min (max (volume *
      (1 + (((target_velocity : K) - (closest_velocity : K)) / 16) * 0.3))
      0.1) 1

/-- Embeds the per-sample amplitude scaling of `SamplePlayer::play_note`:
`sample_data.iter().map(|&s| s * velocity_factor)`. -/
def adjusted_samples {K : Type} [Mul K] (samples : List K) (factor : K) :
    List K :=
  samples.map (fun s => s * factor)

/-- Embeds the resampling rate of `SamplePlayer::play_note`:
`(self.sample_rate as f32 * pitch_ratio) as u32` (the ratio is positive,
so the `u32` truncation is the floor). -/
def adjusted_sample_rate {K : Type} [LinearOrderedField K] [FloorRing K]
    (sample_rate : ℕ) (ratio : K) : ℤ :=
  ⌊(sample_rate : K) * ratio⌋

/-- Clamping via `max`-then-`min` agrees with `clamp lo hi` when
`lo ≤ hi`. -/
theorem min_max_clamp (x l h : ℝ) (hlh : l ≤ h) :
    min (max x l) h = max l (min x h) := by
  rcases le_total x l with hxl | hxl <;> rcases le_total x h with hxh | hxh <;>
    simp [min_def, max_def] <;> split_ifs <;> linarith

/-- C4: in the sample backend's `play_note`, the pitch ratio is
`2^((requestedPitch - resolvedPitch)/12)` (so an exact pitch match plays
at the source rate 48000), the output rate is the floor of the source
rate scaled by the ratio, the amplitude factor is the master volume on
an exact velocity-layer match and otherwise
`volume * (1 + 0.3*(requested - resolved)/16)` clamped to `[0.1, 1]`,
and that factor multiplies every PCM sample. -/
theorem sample_playback_scaling (vol : ℝ) (p cp tv cv : ℕ)
    (samples : List ℝ) :
    pitch_ratio (fun b e : ℝ => b ^ e) p cp =
      (2 : ℝ) ^ (((p : ℝ) - (cp : ℝ)) / 12) ∧
    pitch_ratio (fun b e : ℝ => b ^ e) p p = (1 : ℝ) ∧
    adjusted_sample_rate 48000 (pitch_ratio (fun b e : ℝ => b ^ e) p p) =
      48000 ∧
    (∀ ratio : ℝ, adjusted_sample_rate 48000 ratio = ⌊(48000 : ℝ) * ratio⌋) ∧
    (cv = tv → velocity_factor vol tv cv = vol) ∧
    (cv ≠ tv → velocity_factor vol tv cv =
      max 0.1 (min (vol * (1 + 0.3 * (((tv : ℝ) - (cv : ℝ)) / 16))) 1)) ∧
    (∀ i : ℕ, (adjusted_samples samples (velocity_factor vol tv cv))[i]? =
      samples[i]?.map (fun s => s * velocity_factor vol tv cv)) := by
  have hone : pitch_ratio (fun b e : ℝ => b ^ e) p p = (1 : ℝ) := by
    unfold pitch_ratio
    simp
  refine ⟨rfl, hone, ?_, fun ratio => rfl, ?_, ?_, ?_⟩
  · rw [hone]
    unfold adjusted_sample_rate
    rw [mul_one]
    simp
  · intro hcv
    unfold velocity_factor
    rw [if_pos hcv]
  · intro hcv
    unfold velocity_factor
    rw [if_neg hcv, min_max_clamp _ _ _ (by norm_num)]
    ring_nf
  · intro i
    unfold adjusted_samples
    exact List.getElem?_map _ _ _

/-- Witness for C4: with volume 0.8 and requested layer 8, an exact
velocity match keeps the master volume, and resolved layer 4 gets the
clamped compensation gain. -/
theorem sample_playback_scaling_witness :
    velocity_factor (4/5 : ℝ) 8 8 = 4/5 ∧
    velocity_factor (4/5 : ℝ) 8 4 =
      max 0.1 (min ((4/5) * (1 + 0.3 * (((8 : ℝ) - (4 : ℝ)) / 16))) 1) :=
  ⟨(sample_playback_scaling (4/5) 61 60 8 8 []).2.2.2.2.1 rfl,
    (sample_playback_scaling (4/5) 61 60 8 4 []).2.2.2.2.2.1 (by decide)⟩
